import Mathlib

/-!
Verification of the rmcp-agent core (src/agent/core.rs, executor.rs,
intermediate.rs) against its specification.

Modelling conventions (shallow embedding):
* JSON values are modelled by the inductive `Json`.  Serialized-JSON strings
  produced and consumed via `serde_json::to_string` / `from_str` are modelled
  at the value level (serde's rendering is deterministic and injective, so
  string equality of serialized payloads coincides with value equality);
  raw free text (model output, argument fragments, observations) stays `String`.
* Async/mutable Rust code becomes explicit state passing; loops become
  fuel-indexed recursion; `Result` becomes `Except`.
-/

inductive Json where
  | null : Json
  | bool (b : Bool) : Json
  | num (n : Int) : Json
  | str (s : String) : Json
  | arr (elems : List Json) : Json
  | obj (fields : List (String × Json)) : Json
  deriving Repr

mutual

def Json.decEq : (a b : Json) → Decidable (a = b)
  | .null, .null => isTrue rfl
  | .null, .bool _ => isFalse nofun
  | .null, .num _ => isFalse nofun
  | .null, .str _ => isFalse nofun
  | .null, .arr _ => isFalse nofun
  | .null, .obj _ => isFalse nofun
  | .bool _, .null => isFalse nofun
  | .bool a, .bool b =>
    if h : a = b then isTrue (h ▸ rfl)
    else isFalse (fun e => h (Json.bool.inj e))
  | .bool _, .num _ => isFalse nofun
  | .bool _, .str _ => isFalse nofun
  | .bool _, .arr _ => isFalse nofun
  | .bool _, .obj _ => isFalse nofun
  | .num _, .null => isFalse nofun
  | .num _, .bool _ => isFalse nofun
  | .num a, .num b =>
    if h : a = b then isTrue (h ▸ rfl)
    else isFalse (fun e => h (Json.num.inj e))
  | .num _, .str _ => isFalse nofun
  | .num _, .arr _ => isFalse nofun
  | .num _, .obj _ => isFalse nofun
  | .str _, .null => isFalse nofun
  | .str _, .bool _ => isFalse nofun
  | .str _, .num _ => isFalse nofun
  | .str a, .str b =>
    if h : a = b then isTrue (h ▸ rfl)
    else isFalse (fun e => h (Json.str.inj e))
  | .str _, .arr _ => isFalse nofun
  | .str _, .obj _ => isFalse nofun
  | .arr _, .null => isFalse nofun
  | .arr _, .bool _ => isFalse nofun
  | .arr _, .num _ => isFalse nofun
  | .arr _, .str _ => isFalse nofun
  | .arr a, .arr b =>
    match Json.decEqList a b with
    | isTrue h => isTrue (h ▸ rfl)
    | isFalse h => isFalse (fun e => h (Json.arr.inj e))
  | .arr _, .obj _ => isFalse nofun
  | .obj _, .null => isFalse nofun
  | .obj _, .bool _ => isFalse nofun
  | .obj _, .num _ => isFalse nofun
  | .obj _, .str _ => isFalse nofun
  | .obj _, .arr _ => isFalse nofun
  | .obj a, .obj b =>
    match Json.decEqFields a b with
    | isTrue h => isTrue (h ▸ rfl)
    | isFalse h => isFalse (fun e => h (Json.obj.inj e))

def Json.decEqList : (a b : List Json) → Decidable (a = b)
  | [], [] => isTrue rfl
  | [], _ :: _ => isFalse nofun
  | _ :: _, [] => isFalse nofun
  | x :: xs, y :: ys =>
    match Json.decEq x y with
    | isTrue h1 =>
      match Json.decEqList xs ys with
      | isTrue h2 => isTrue (h1 ▸ h2 ▸ rfl)
      | isFalse h2 => isFalse (fun e => h2 (List.cons.inj e).2)
    | isFalse h1 => isFalse (fun e => h1 (List.cons.inj e).1)

def Json.decEqFields : (a b : List (String × Json)) → Decidable (a = b)
  | [], [] => isTrue rfl
  | [], _ :: _ => isFalse nofun
  | _ :: _, [] => isFalse nofun
  | (k1, v1) :: xs, (k2, v2) :: ys =>
    if hk : k1 = k2 then
      match Json.decEq v1 v2 with
      | isTrue hv =>
        match Json.decEqFields xs ys with
        | isTrue h2 => isTrue (hk ▸ hv ▸ h2 ▸ rfl)
        | isFalse h2 => isFalse (fun e => h2 (List.cons.inj e).2)
      | isFalse hv =>
        isFalse (fun e => hv (congrArg Prod.snd (List.cons.inj e).1))
    else isFalse (fun e => hk (congrArg Prod.fst (List.cons.inj e).1))

end

instance : DecidableEq Json := Json.decEq

namespace Json

/-- Field access on a JSON object, modelling `serde_json::Value::get`. -/
def get? (j : Json) (k : String) : Option Json :=
  match j with
  | .obj fields => fields.lookup k
  | _ => none

/-- Models `Value::as_str`. -/
def asStr? : Json → Option String
  | .str s => some s
  | _ => none

/-- Models `Value::as_array`. -/
def asArr? : Json → Option (List Json)
  | .arr l => some l
  | _ => none

/-! A JSON text parser modelling `serde_json::from_str::<Value>` (integers
only; floats and exponents are rejected, which no analysed code path
exercises).  Fuel bounds the recursion; it is ample for every input the
theorems touch. -/

def qChar : Char := Char.ofNat 34

def bsChar : Char := Char.ofNat 92

def lbraceChar : Char := Char.ofNat 123

def rbraceChar : Char := Char.ofNat 125

def isWsChar (c : Char) : Bool :=
  c = ' ' || c = '\t' || c = '\n' || c = '\r'

def skipWs : List Char → List Char
  | [] => []
  | c :: cs => if isWsChar c then skipWs cs else c :: cs

def hexVal? (c : Char) : Option Nat :=
  if c.isDigit then some (c.toNat - 48)
  else if 'a' ≤ c ∧ c ≤ 'f' then some (c.toNat - 87)
  else if 'A' ≤ c ∧ c ≤ 'F' then some (c.toNat - 55)
  else none

def parseEscape : List Char → Option (Char × List Char)
  | c :: cs =>
    if c = qChar then some (qChar, cs)
    else if c = bsChar then some (bsChar, cs)
    else if c = '/' then some ('/', cs)
    else if c = 'n' then some ('\n', cs)
    else if c = 't' then some ('\t', cs)
    else if c = 'r' then some ('\r', cs)
    else if c = 'b' then some (Char.ofNat 8, cs)
    else if c = 'f' then some (Char.ofNat 12, cs)
    else if c = 'u' then
      match cs with
      | a :: b :: c2 :: d :: rest =>
        match hexVal? a, hexVal? b, hexVal? c2, hexVal? d with
        | some va, some vb, some vc, some vd =>
          some (Char.ofNat (va * 4096 + vb * 256 + vc * 16 + vd), rest)
        | _, _, _, _ => none
      | _ => none
    else none
  | [] => none

def parseStrBody : Nat → String → List Char → Option (String × List Char)
  | 0, _, _ => none
  | _ + 1, _, [] => none
  | fuel + 1, acc, c :: cs =>
    if c = qChar then some (acc, cs)
    else if c = bsChar then
      match parseEscape cs with
      | some (e, cs2) => parseStrBody fuel (acc.push e) cs2
      | none => none
    else parseStrBody fuel (acc.push c) cs

def takeDigits : List Char → List Char × List Char
  | [] => ([], [])
  | c :: cs =>
    if c.isDigit then
      let (ds, rest) := takeDigits cs
      (c :: ds, rest)
    else ([], c :: cs)

def digitsVal (ds : List Char) : Nat :=
  ds.foldl (fun acc c => acc * 10 + (c.toNat - 48)) 0

def parseNum : List Char → Option (Json × List Char)
  | cs =>
    let (neg, cs1) := match cs with
      | c :: rest => if c = '-' then (true, rest) else (false, cs)
      | [] => (false, cs)
    match takeDigits cs1 with
    | ([], _) => none
    | (ds, rest) =>
      match rest with
      | c :: _ =>
        if c = '.' || c = 'e' || c = 'E' then none
        else
          let v : Int := Int.ofNat (digitsVal ds)
          some (.num (if neg then -v else v), rest)
      | [] =>
        let v : Int := Int.ofNat (digitsVal ds)
        some (.num (if neg then -v else v), rest)

mutual

def parseValue : Nat → List Char → Option (Json × List Char)
  | 0, _ => none
  | fuel + 1, cs =>
    match skipWs cs with
    | 'n' :: 'u' :: 'l' :: 'l' :: rest => some (.null, rest)
    | 't' :: 'r' :: 'u' :: 'e' :: rest => some (.bool true, rest)
    | 'f' :: 'a' :: 'l' :: 's' :: 'e' :: rest => some (.bool false, rest)
    | c :: rest =>
      if c = qChar then
        match parseStrBody (rest.length + 1) "" rest with
        | some (s, r) => some (.str s, r)
        | none => none
      else if c = '[' then
        match skipWs rest with
        | c2 :: r2 =>
          if c2 = ']' then some (.arr [], r2)
          else parseElems fuel [] rest
        | [] => none
      else if c = lbraceChar then
        match skipWs rest with
        | c2 :: r2 =>
          if c2 = rbraceChar then some (.obj [], r2)
          else parseFields fuel [] rest
        | [] => none
      else parseNum (c :: rest)
    | [] => none

def parseElems : Nat → List Json → List Char → Option (Json × List Char)
  | 0, _, _ => none
  | fuel + 1, acc, cs =>
    match parseValue fuel cs with
    | some (v, rest) =>
      match skipWs rest with
      | c :: r2 =>
        if c = ',' then parseElems fuel (acc ++ [v]) r2
        else if c = ']' then some (.arr (acc ++ [v]), r2)
        else none
      | [] => none
    | none => none

def parseFields : Nat → List (String × Json) → List Char → Option (Json × List Char)
  | 0, _, _ => none
  | fuel + 1, acc, cs =>
    match skipWs cs with
    | c :: rest =>
      if c = qChar then
        match parseStrBody (rest.length + 1) "" rest with
        | some (k, r2) =>
          match skipWs r2 with
          | c2 :: r3 =>
            if c2 = ':' then
              match parseValue fuel r3 with
              | some (v, r4) =>
                match skipWs r4 with
                | c3 :: r5 =>
                  if c3 = ',' then parseFields fuel (acc ++ [(k, v)]) r5
                  else if c3 = rbraceChar then some (.obj (acc ++ [(k, v)]), r5)
                  else none
                | [] => none
              | none => none
            else none
          | [] => none
        | none => none
      else none
    | [] => none

end

/-- Models `serde_json::from_str::<Value>` on a whole input string. -/
def parse (s : String) : Option Json :=
  match parseValue (s.length + 1) s.data with
  | some (j, rest) => if (skipWs rest).isEmpty then some j else none
  | none => none

end Json

/-! ## Data model (langchain_rust::schemas, as used by this crate) -/

/-- Models `langchain_rust::schemas::MessageType`. -/
inductive MessageType where
  | systemMessage
  | aiMessage
  | humanMessage
  | toolMessage
  deriving DecidableEq, Repr

/-- Models `langchain_rust::schemas::Message` (the fields this crate reads/writes:
`message_type`, `content`, `tool_calls`, and the `id` slot carrying a tool
call id for tool messages). -/
structure Message where
  messageType : MessageType
  content : String
  toolCalls : Option Json
  msgId : Option String
  deriving DecidableEq, Repr

def Message.newSystemMessage (s : String) : Message :=
  ⟨.systemMessage, s, none, none⟩

def Message.newAiMessage (s : String) : Message :=
  ⟨.aiMessage, s, none, none⟩

def Message.newHumanMessage (s : String) : Message :=
  ⟨.humanMessage, s, none, none⟩

def Message.newToolMessage (content : String) (toolCallId : String) : Message :=
  ⟨.toolMessage, content, none, some toolCallId⟩

def Message.withToolCalls (m : Message) (tc : Json) : Message :=
  { m with toolCalls := some tc }

/-- Models `FunctionCallResponse.function`: the name/arguments pair (arguments is
the serialized-JSON argument text, kept as a raw string as in the source). -/
structure FunctionCallDetail where
  name : String
  arguments : String
  deriving DecidableEq, Repr

/-- Models `langchain_rust::schemas::FunctionCallResponse`; `fcType` is the field
serialized as `"type"`. -/
structure FunctionCallResponse where
  id : String
  fcType : String
  function : FunctionCallDetail
  deriving DecidableEq, Repr

/-- Models `langchain_rust::schemas::LogTools`.  In the source `tools` is a string
holding serialized JSON; here it is modelled by its JSON value. -/
structure LogTools where
  tool_id : String
  tools : Json
  deriving DecidableEq, Repr

/-- Models `langchain_rust::schemas::AgentAction`.  `log` is a serialized `LogTools`
in the source, modelled by its JSON value. -/
structure AgentAction where
  tool : String
  tool_input : String
  log : Json
  deriving DecidableEq, Repr

structure AgentFinish where
  output : String
  deriving DecidableEq, Repr

/-- Models `langchain_rust::schemas::AgentEvent`. -/
inductive AgentEvent where
  | Action (actions : List AgentAction)
  | Finish (f : AgentFinish)
  deriving DecidableEq, Repr

/-- Models `src/agent/extension.rs`: `DeltaEvent`. -/
inductive DeltaEvent where
  | Action (a : AgentAction)
  | Content (s : String)
  deriving DecidableEq, Repr

/-- Models `src/agent/extension.rs`: `AgentEventChunk`. -/
inductive AgentEventChunk where
  | Delta (d : DeltaEvent)
  | Final (e : AgentEvent)
  deriving DecidableEq, Repr

/-- The `AgentError` variants reachable in the analysed code paths. -/
inductive AgentErr where
  | serdeJsonError
  | toolError (msg : String)
  deriving DecidableEq, Repr

/-- Serde encoding of `FunctionCallResponse` (field order as declared,
`fcType` rendered under the name `"type"`). -/
def encodeFCR (t : FunctionCallResponse) : Json :=
  .obj [("id", .str t.id), ("type", .str t.fcType),
        ("function", .obj [("name", .str t.function.name),
                           ("arguments", .str t.function.arguments)])]

/-- Serde decoding of `FunctionCallResponse` (required string fields;
unknown fields ignored, as serde does by default). -/
def decodeFCR (j : Json) : Option FunctionCallResponse :=
  match (j.get? "id").bind Json.asStr? with
  | none => none
  | some id =>
    match (j.get? "type").bind Json.asStr? with
    | none => none
    | some ty =>
      match j.get? "function" with
      | none => none
      | some f =>
        match (f.get? "name").bind Json.asStr? with
        | none => none
        | some name =>
          match (f.get? "arguments").bind Json.asStr? with
          | none => none
          | some args => some ⟨id, ty, ⟨name, args⟩⟩

/-- Models `serde_json::from_str::<Vec<FunctionCallResponse>>`, at the value level. -/
def decodeFCRList (j : Json) : Option (List FunctionCallResponse) :=
  (Json.asArr? j).bind (List.mapM decodeFCR)

/-- Models `serde_json::json!(tools)` for `tools : Vec<FunctionCallResponse>`. -/
def encodeFCRList (ts : List FunctionCallResponse) : Json :=
  .arr (ts.map encodeFCR)

/-- Serde encoding of `LogTools`. -/
def encodeLogTools (lt : LogTools) : Json :=
  .obj [("tool_id", .str lt.tool_id), ("tools", lt.tools)]

/-- Serde decoding of `LogTools`. -/
def decodeLogTools (j : Json) : Option LogTools :=
  match (j.get? "tool_id").bind Json.asStr? with
  | none => none
  | some tid =>
    match j.get? "tools" with
    | none => none
    | some tj => some ⟨tid, tj⟩

/-- Rust `str::trim` (whitespace at both ends removed; ASCII whitespace,
which covers every string the analysed code produces).  Lean's own
`String.trim` is not kernel-reducible, so the model defines it directly. -/
def rustTrim (s : String) : String :=
  ⟨((s.data.dropWhile fun c => c.isWhitespace).reverse.dropWhile
      fun c => c.isWhitespace).reverse⟩

/-- Rust `str::replace(" ", "_")`: the single-space pattern makes it a
per-character substitution. -/
def replaceSpaces (s : String) : String :=
  ⟨s.data.map fun c => if c = ' ' then '_' else c⟩

/-! ## Delta Accumulator (src/agent/core.rs, `ToolCallAccumulator`) -/

structure ToolCallAccumulator where
  name : Option String
  args : String
  id : Option String
  deriving DecidableEq, Repr

def ToolCallAccumulator.new : ToolCallAccumulator :=
  ⟨none, "", none⟩

def jsonOfOptStr : Option String → Json
  | some s => .str s
  | none => .null

/-- Models `ToolCallAccumulator::to_action_chunk` (core.rs:325-365).  The serialize
calls cannot fail for these value shapes, so the `unwrap_or_else` fallbacks
are dead. -/
def ToolCallAccumulator.to_action_chunk (acc : ToolCallAccumulator)
    (args_chunk : String) : AgentAction :=
  let processed_args := if (rustTrim args_chunk).isEmpty then "\x7b\x7d" else args_chunk
  let function_call_response : Json :=
    .obj [("id", jsonOfOptStr acc.id), ("type", .str "function"),
          ("function", .obj [("name", jsonOfOptStr acc.name),
                             ("arguments", .str processed_args)])]
  let tools_array : Json := .arr [function_call_response]
  let log_tools : LogTools := ⟨acc.id.getD "", tools_array⟩
  ⟨acc.name.getD "", processed_args, encodeLogTools log_tools⟩

/-- Models `ToolCallAccumulator::accumulate` (core.rs:293-318); the mutated receiver
is returned alongside the produced partial action. -/
def ToolCallAccumulator.accumulate (acc : ToolCallAccumulator) (delta : Json) :
    ToolCallAccumulator × AgentAction :=
  match ((delta.get? "tool_calls").bind Json.asArr?).bind List.head? with
  | some tool_call =>
    let step1 : ToolCallAccumulator × String :=
      match tool_call.get? "function" with
      | some function =>
        let accN :=
          match (function.get? "name").bind Json.asStr? with
          | some n => { acc with name := some n }
          | none => acc
        match (function.get? "arguments").bind Json.asStr? with
        | some a => ({ accN with args := accN.args ++ a }, a)
        | none => (accN, "")
      | none => (acc, "")
    let acc2 :=
      match (tool_call.get? "id").bind Json.asStr? with
      | some i => if i.isEmpty then step1.1 else { step1.1 with id := some i }
      | none => step1.1
    (acc2, acc2.to_action_chunk step1.2)
  | none => (acc, acc.to_action_chunk "")

/-- Models `ToolCallAccumulator::take_action` (core.rs:320-323): `mem::take` drains
the argument buffer, then the action is built from it. -/
def ToolCallAccumulator.take_action (acc : ToolCallAccumulator) :
    ToolCallAccumulator × AgentAction :=
  let args := acc.args
  let acc2 := { acc with args := "" }
  (acc2, acc2.to_action_chunk args)

/-! ## Scratchpad Builder (src/agent/intermediate.rs, core.rs) -/

/-- Models `IntermediateStep for (AgentAction, String)::append_to_conversation`
(intermediate.rs:11-32). -/
def append_to_conversation (step : AgentAction × String)
    (thoughts : List Message) : Except AgentErr (List Message) :=
  match decodeLogTools step.1.log with
  | none => .error .serdeJsonError
  | some lt =>
    match decodeFCRList lt.tools with
    | none => .error .serdeJsonError
    | some tools =>
      let thoughts1 :=
        if thoughts.isEmpty then
          thoughts ++ [(Message.newAiMessage "").withToolCalls (encodeFCRList tools)]
        else thoughts
      .ok (thoughts1 ++ [Message.newToolMessage step.2 lt.tool_id])

/-- The `for step in ... { step.append_to_conversation(&mut thoughts)? }`
loops of `construct_scratchpad`. -/
def appendSteps (steps : List (AgentAction × String)) (thoughts : List Message) :
    Except AgentErr (List Message) :=
  match steps with
  | [] => .ok thoughts
  | s :: rest =>
    match append_to_conversation s thoughts with
    | .error e => .error e
    | .ok t => appendSteps rest t

namespace OpenAIMcpAgent

def MAX_STEPS : Nat := 5

def SUMMARY_THRESHOLD : Nat := 10

/-- Models `OpenAIMcpAgent::create_summary_message` (core.rs:64-75); it always
succeeds. -/
def create_summary_message (old_steps : List (AgentAction × String)) : Message :=
  Message.newSystemMessage
    ("Previous " ++ toString old_steps.length ++
     " steps summary: [Summarized execution history with " ++
     toString old_steps.length ++ " actions completed]")

/-- Models `OpenAIMcpAgent::construct_scratchpad` (core.rs:37-62). -/
def construct_scratchpad (intermediate_steps : List (AgentAction × String)) :
    Except AgentErr (List Message) :=
  if intermediate_steps.length > SUMMARY_THRESHOLD then
    appendSteps
      (intermediate_steps.drop (intermediate_steps.length - MAX_STEPS))
      [create_summary_message
        (intermediate_steps.take (intermediate_steps.length - MAX_STEPS))]
  else
    appendSteps intermediate_steps []

/-- Models `Agent::plan for OpenAIMcpAgent` (core.rs:155-184), given the chain's
generation `output` (the language-model call is the external collaborator).
In the source the `Ok` branch stores the raw `output` string in each log's
`tools` field; at the value level that is the parsed value of `output`. -/
def plan (intermediate_steps : List (AgentAction × String)) (output : String) :
    Except AgentErr AgentEvent :=
  match construct_scratchpad intermediate_steps with
  | .error e => .error e
  | .ok _ =>
    match Json.parse output with
    | some j =>
      match decodeFCRList j with
      | some tools =>
        .ok (.Action (tools.map fun tool =>
          ⟨tool.function.name, tool.function.arguments,
           encodeLogTools ⟨tool.id, j⟩⟩))
      | none => .ok (.Finish ⟨output⟩)
    | none => .ok (.Finish ⟨output⟩)

/-- Models `AgentExt::plan_with_steps for OpenAIMcpAgent` (core.rs:193-222): its
body is identical to `plan`'s. -/
def plan_with_steps (steps : List (AgentAction × String)) (output : String) :
    Except AgentErr AgentEvent :=
  match construct_scratchpad steps with
  | .error e => .error e
  | .ok _ =>
    match Json.parse output with
    | some j =>
      match decodeFCRList j with
      | some tools =>
        .ok (.Action (tools.map fun tool =>
          ⟨tool.function.name, tool.function.arguments,
           encodeLogTools ⟨tool.id, j⟩⟩))
      | none => .ok (.Finish ⟨output⟩)
    | none => .ok (.Finish ⟨output⟩)

end OpenAIMcpAgent

/-! ## Execution Loop (src/agent/executor.rs) -/

/-- A registered tool: `Tool::name` plus `Tool::call` (modelled as a pure
function from the serialized argument string to a result or an error text). -/
structure ToolM where
  name : String
  call : String → Except String String

/-- The name normalization applied on both registration and lookup:
`name.trim().replace(" ", "_")`. -/
def normalizeName (s : String) : String :=
  replaceSpaces (rustTrim s)

/-- Lookup in the `name_to_tools` table of `get_name_to_tools`
(executor.rs:60-67).  The `HashMap` keeps the last insert for a key, hence
the reversed search. -/
def lookupTool (tools : List ToolM) (key : String) : Option ToolM :=
  tools.reverse.find? (fun t => normalizeName t.name == key)

/-- Models `ChainError` variants reachable here.  `agentError` carries the inner
message; the `Display` prefixes added by the error enums are not modelled. -/
inductive ChainErr where
  | agentError (msg : String)
  | serdeJsonError
  deriving DecidableEq, Repr

/-- Models `max_iterations as usize` for `max_iterations: i32` (sign-extending
cast, then reinterpreted as a 64-bit unsigned value). -/
def i32AsUsize (m : Int) : Nat :=
  (m % (2 ^ 64 : Int)).toNat

/-- The per-step Memory flush of the synchronous `Finish` arm
(executor.rs:136-146): dedup of identical tool-call payloads via the
`tools_ai_message_seen` map, a decode failure aborts via `?`.  In the source
the map is keyed by the serialized `tools` string; at the value level the
key is its JSON value. -/
def flushStepsStrict (mem : List Message) (seen : List Json)
    (steps : List (AgentAction × String)) : Except ChainErr (List Message) :=
  match steps with
  | [] => .ok mem
  | (action, observation) :: rest =>
    match decodeLogTools action.log with
    | none => .error .serdeJsonError
    | some lt =>
      let fresh := lt.tools ∉ seen
      let mem1 := if fresh then
          mem ++ [(Message.newAiMessage "").withToolCalls lt.tools]
        else mem
      let seen1 := if fresh then seen ++ [lt.tools] else seen
      flushStepsStrict (mem1 ++ [Message.newToolMessage observation lt.tool_id])
        seen1 rest

/-- The whole Memory write of `call`'s `AgentEvent::Finish` arm
(executor.rs:127-149): user message, deduplicated step groups, final
assistant message. -/
def persistFinishSync (mem : List Message) (input : String)
    (steps : List (AgentAction × String)) (output : String) :
    Except ChainErr (List Message) :=
  match flushStepsStrict (mem ++ [Message.newHumanMessage input]) [] steps with
  | .error e => .error e
  | .ok mem2 => .ok (mem2 ++ [Message.newAiMessage output])

/-- Executor configuration plus the abstracted planner for the synchronous
path: `plan` maps the current step list to the planner's decision (the
planning-error payload is its message). -/
structure CallEnv where
  plan : List (AgentAction × String) → Except String AgentEvent
  tools : List ToolM
  breakIfError : Bool
  maxIterations : Option Int
  memory : Option (List Message)
  input : String

/-- The `for action in actions` loop of `call`'s `AgentEvent::Action` arm
(executor.rs:98-124): sequential resolution and invocation, the
`break_if_error` policy, steps appended in call order. -/
def processActions (env : CallEnv) (actions : List AgentAction)
    (steps : List (AgentAction × String)) :
    Except ChainErr (List (AgentAction × String)) :=
  match actions with
  | [] => .ok steps
  | action :: rest =>
    match lookupTool env.tools (normalizeName action.tool) with
    | none => .error (.agentError ("Tool " ++ action.tool ++ " not found"))
    | some tool =>
      match tool.call action.tool_input with
      | .ok result => processActions env rest (steps ++ [(action, result)])
      | .error err =>
        if env.breakIfError then
          .error (.agentError err)
        else
          processActions env rest
            (steps ++ [(action, "The tool return the following error: " ++ err)])

/-- The result of `call`: the generation string, the final Memory contents,
and (for specification purposes) the recorded step list. -/
structure CallResult where
  generation : String
  memory : Option (List Message)
  steps : List (AgentAction × String)
  deriving Repr

/-- The `loop` of `Chain::call for OpenAIMcpAgentExecutor`
(executor.rs:90-166), fuel-indexed: `none` means the fuel ran out before the
loop returned. -/
def callLoop (env : CallEnv) : Nat → List (AgentAction × String) →
    Option (Except ChainErr CallResult)
  | 0, _ => none
  | fuel + 1, steps =>
    match env.plan steps with
    | .error e => some (.error (.agentError ("Error in agent planning: " ++ e)))
    | .ok (.Action actions) =>
      match processActions env actions steps with
      | .error e => some (.error e)
      | .ok steps2 =>
        match env.maxIterations with
        | some m =>
          if i32AsUsize m ≤ steps2.length then
            some (.ok ⟨"Max iterations reached", env.memory, steps2⟩)
          else callLoop env fuel steps2
        | none => callLoop env fuel steps2
    | .ok (.Finish finish) =>
      match env.memory with
      | none => some (.ok ⟨finish.output, none, steps⟩)
      | some mem =>
        match persistFinishSync mem env.input steps finish.output with
        | .error e => some (.error e)
        | .ok mem2 => some (.ok ⟨finish.output, some mem2, steps⟩)

/-- Models `Chain::call` (executor.rs:75-167): the step list starts empty. -/
def call (env : CallEnv) (fuel : Nat) : Option (Except ChainErr CallResult) :=
  callLoop env fuel []

/-! ### Streaming variant (executor.rs `stream`, lines 169-701).

A wire chunk is reduced to the two fields that vary: the `delta` object and
`finish_reason`; the constant metadata (`id`, `conversation_id` at the top
level, `object`, `created`, `model`, `index`, `logprobs`) is omitted. -/

structure Chunk where
  delta : Json
  finish_reason : Option String
  deriving DecidableEq, Repr

/-- The initial chunk (executor.rs:199-219). -/
def initialChunk : Chunk :=
  ⟨.obj [("role", .str "assistant"), ("content", .null)], none⟩

/-- A plain content-delta chunk (executor.rs:271-289). -/
def contentChunk (c : String) : Chunk :=
  ⟨.obj [("content", .str c)], none⟩

/-- A content chunk carrying `finish_reason: "stop"`, used on every fatal
path of the stream (executor.rs:240-258, 362-380, 432-450, 641-659). -/
def contentStopChunk (msg : String) : Chunk :=
  ⟨.obj [("content", .str msg)], some "stop"⟩

/-- The tool-call JSON object embedded in announcement chunks
(executor.rs:318-326, 394-402). -/
def toolCallJson (conversationId toolCallId name arguments : String) : Json :=
  .obj [("id", .str toolCallId), ("conversation_id", .str conversationId),
        ("type", .str "function"),
        ("function", .obj [("name", .str name),
                           ("arguments", .str arguments)])]

/-- Partial tool-call announcement (executor.rs:329-347), `finish_reason`
null. -/
def partialToolCallChunk (conversationId toolCallId name arguments : String) :
    Chunk :=
  ⟨.obj [("tool_calls", .arr [toolCallJson conversationId toolCallId name arguments])],
   none⟩

/-- Final tool-call announcement (executor.rs:404-422): its `finish_reason`
is the empty string `""`. -/
def finalToolCallChunk (conversationId toolCallId name arguments : String) :
    Chunk :=
  ⟨.obj [("tool_calls", .arr [toolCallJson conversationId toolCallId name arguments])],
   some ""⟩

/-- Tool-result chunk (executor.rs:470-493). -/
def observationChunk (parsed : Json) (toolName toolCallId : String) : Chunk :=
  ⟨.obj [("content", .null), ("parsed", parsed), ("tool_name", .str toolName),
         ("tool_call_id", .str toolCallId)], none⟩

/-- Terminal chunk of the `Finish` arm (executor.rs:618-634). -/
def finishTerminalChunk : Chunk :=
  ⟨.obj [], some "stop"⟩

/-- Terminal chunk of the iteration cap (executor.rs:674-692). -/
def maxIterChunk : Chunk :=
  ⟨.obj [("content", .str "Maximum iterations reached.")], some "length"⟩

/-- The per-step Memory flush of the streaming path (executor.rs:509-553 for
a cycle's steps, 576-614 for all steps at `Finish`): same dedup as
`flushStepsStrict`, but a step whose log fails to decode is skipped with a
warning instead of aborting. -/
def flushStepsSkipBad (mem : List Message) (seen : List Json)
    (steps : List (AgentAction × String)) : List Message :=
  match steps with
  | [] => mem
  | (action, observation) :: rest =>
    match decodeLogTools action.log with
    | none => flushStepsSkipBad mem seen rest
    | some lt =>
      let fresh := lt.tools ∉ seen
      let mem1 := if fresh then
          mem ++ [(Message.newAiMessage "").withToolCalls lt.tools]
        else mem
      let seen1 := if fresh then seen ++ [lt.tools] else seen
      flushStepsSkipBad (mem1 ++ [Message.newToolMessage observation lt.tool_id])
        seen1 rest

/-- The Memory write of the stream's `AgentEvent::Finish` arm
(executor.rs:557-616): user message only when no step was recorded,
accumulated cycle content if non-empty, skip-bad step groups over all
recorded steps, final assistant message. -/
def persistFinishStream (mem : List Message) (input : String)
    (steps currentIterationSteps : List (AgentAction × String))
    (accumulatedContent : String) (output : String) : List Message :=
  let mem1 :=
    if steps.isEmpty && currentIterationSteps.isEmpty then
      mem ++ [Message.newHumanMessage input]
    else mem
  let mem2 :=
    if accumulatedContent.isEmpty then mem1
    else mem1 ++ [Message.newAiMessage accumulatedContent]
  flushStepsSkipBad mem2 [] steps ++ [Message.newAiMessage output]

/-- Executor configuration plus the abstracted streaming planner:
`planStream` maps the current step list to either a planning error or the
finite sequence of sub-events its stream yields.  `mint` models the
`Uuid::now_v7()` ids minted when an action log lacks a usable `tool_id`,
indexed by a counter. -/
structure StreamEnv where
  planStream : List (AgentAction × String) →
    Except String (List (Except String AgentEventChunk))
  tools : List ToolM
  breakIfError : Bool
  maxIterations : Option Int
  memory : Option (List Message)
  input : String
  conversationId : String
  mint : Nat → String

/-- Outcome of the `for action in actions` loop of the stream's terminal
`Action` arm: either the task returned (fatal path) or the loop completed. -/
inductive BatchOut where
  | ended (chunks : List Chunk)
  | ok (chunks : List Chunk) (steps currentIterationSteps : List (AgentAction × String))
      (ctr : Nat)

/-- The stream's terminal-`Action` for-loop (executor.rs:354-500): resolve,
announce with the `""` finish reason, invoke, emit the observation chunk,
record the step in both step lists. -/
def processBatch (env : StreamEnv) (actions : List AgentAction)
    (steps currentIterationSteps : List (AgentAction × String)) (ctr : Nat) :
    BatchOut :=
  match actions with
  | [] => .ok [] steps currentIterationSteps ctr
  | action :: rest =>
    match lookupTool env.tools (normalizeName action.tool) with
    | none => .ended [contentStopChunk ("Tool " ++ action.tool ++ " not found")]
    | some tool =>
      let idAndCtr : String × Nat :=
        match (action.log.get? "tool_id").bind Json.asStr? with
        | some s => (s, ctr)
        | none => (env.mint ctr, ctr + 1)
      let announce := finalToolCallChunk env.conversationId idAndCtr.1
        action.tool action.tool_input
      let proceed : String → BatchOut := fun observation =>
        let parsed := (Json.parse observation).getD (.str observation)
        let obsChunk := observationChunk parsed tool.name idAndCtr.1
        match processBatch env rest (steps ++ [(action, observation)])
            (currentIterationSteps ++ [(action, observation)]) idAndCtr.2 with
        | .ended cs => .ended (announce :: obsChunk :: cs)
        | .ok cs s2 c2 ct2 => .ok (announce :: obsChunk :: cs) s2 c2 ct2
      match tool.call action.tool_input with
      | .ok observation => proceed observation
      | .error err =>
        if env.breakIfError then
          .ended [announce, contentStopChunk ("Tool error: " ++ err)]
        else proceed ("Tool error: " ++ err)

/-- Outcome of one planning cycle's `while let Some(chunk_result)` loop:
either the spawned task returned, or control falls through to the
`chat_history` refresh and the iteration-cap check. -/
inductive ItemsOut where
  | ended (chunks : List Chunk) (mem : Option (List Message))
  | nextCycle (chunks : List Chunk) (steps : List (AgentAction × String))
      (mem : Option (List Message)) (ctr : Nat)

/-- One cycle's sub-event loop (executor.rs:263-663).  `acc` is
`accumulated_content`, `cur` is `current_iteration_steps` (both reset by the
caller at cycle start). -/
def processItems (env : StreamEnv) (items : List (Except String AgentEventChunk))
    (acc : String) (cur steps : List (AgentAction × String))
    (mem : Option (List Message)) (ctr : Nat) : ItemsOut :=
  match items with
  | [] => .nextCycle [] steps mem ctr
  | item :: rest =>
    match item with
    | .error e => .ended [contentStopChunk ("Stream error: " ++ e)] mem
    | .ok (.Delta (.Content content)) =>
      if content.isEmpty then processItems env rest acc cur steps mem ctr
      else
        match processItems env rest (acc ++ content) cur steps mem ctr with
        | .ended cs m => .ended (contentChunk content :: cs) m
        | .nextCycle cs s m c => .nextCycle (contentChunk content :: cs) s m c
    | .ok (.Delta (.Action action)) =>
      -- executor.rs:292-347; `from_str(&action.log).unwrap_or_default()`
      -- cannot fail at the value level.  A present non-string `tool_id`
      -- degrades to `""`; an absent one mints a fresh id.
      let idAndCtr : String × Nat :=
        match action.log.get? "tool_id" with
        | some idv => ((Json.asStr? idv).getD "", ctr)
        | none => (env.mint ctr, ctr + 1)
      let chunk := partialToolCallChunk env.conversationId idAndCtr.1
        action.tool action.tool_input
      match processItems env rest acc cur steps mem idAndCtr.2 with
      | .ended cs m => .ended (chunk :: cs) m
      | .nextCycle cs s m c => .nextCycle (chunk :: cs) s m c
    | .ok (.Final (.Action actions)) =>
      match processBatch env actions steps cur ctr with
      | .ended cs => .ended cs mem
      | .ok cs steps2 cur2 ctr2 =>
        -- executor.rs:502-553, then `break` (remaining items are dropped)
        let mem1 :=
          match mem with
          | some m =>
            some (if acc.isEmpty then m else m ++ [Message.newAiMessage acc])
          | none => none
        let mem2 :=
          match mem1 with
          | some m => some (flushStepsSkipBad m [] cur2)
          | none => none
        .nextCycle cs steps2 mem2 ctr2
    | .ok (.Final (.Finish finish)) =>
      let mem1 :=
        match mem with
        | some m =>
          some (persistFinishStream m env.input steps cur acc finish.output)
        | none => none
      .ended [finishTerminalChunk] mem1

/-- Outcome of the spawned streaming task: the chunks pushed through the
channel and the final Memory contents.  `fuelOut` marks runs cut off by
fuel before the task returned. -/
inductive StreamOut where
  | ended (chunks : List Chunk) (mem : Option (List Message))
  | fuelOut (chunks : List Chunk) (mem : Option (List Message))

def StreamOut.chunks : StreamOut → List Chunk
  | .ended cs _ => cs
  | .fuelOut cs _ => cs

def StreamOut.isEnded : StreamOut → Bool
  | .ended _ _ => true
  | .fuelOut _ _ => false

def StreamOut.memOut : StreamOut → Option (List Message)
  | .ended _ m => m
  | .fuelOut _ m => m

/-- The spawned task's `loop` (executor.rs:232-696), fuel-indexed over
planning cycles.  After a non-finishing cycle, `chat_history` is refreshed
from Memory (prompt construction; the abstract planner consumes the step
list) and the iteration cap is checked. -/
def streamLoop (env : StreamEnv) : Nat → List (AgentAction × String) →
    Option (List Message) → Nat → StreamOut
  | 0, _, mem, _ => .fuelOut [] mem
  | fuel + 1, steps, mem, ctr =>
    match env.planStream steps with
    | .error e => .ended [contentStopChunk ("Error: " ++ e)] mem
    | .ok items =>
      match processItems env items "" [] steps mem ctr with
      | .ended cs m => .ended cs m
      | .nextCycle cs steps2 mem2 ctr2 =>
        let capped : Bool :=
          match env.maxIterations with
          | some m => i32AsUsize m ≤ steps2.length
          | none => false
        if capped then .ended (cs ++ [maxIterChunk]) mem2
        else
          match streamLoop env fuel steps2 mem2 ctr2 with
          | .ended cs2 m2 => .ended (cs ++ cs2) m2
          | .fuelOut cs2 m2 => .fuelOut (cs ++ cs2) m2

/-- Models `Chain::stream` (executor.rs:169-701): the initial chunk is sent before
the task is spawned with empty step list and the configured Memory. -/
def stream (env : StreamEnv) (fuel : Nat) : StreamOut :=
  match streamLoop env fuel [] env.memory 0 with
  | .ended cs m => .ended (initialChunk :: cs) m
  | .fuelOut cs m => .fuelOut (initialChunk :: cs) m

def BatchOut.chunks : BatchOut → List Chunk
  | .ended cs => cs
  | .ok cs _ _ _ => cs

def ItemsOut.chunks : ItemsOut → List Chunk
  | .ended cs _ => cs
  | .nextCycle cs _ _ _ => cs

/-! ## Specification-side helper functions (used only in theorem statements,
to describe the outputs of the code-derived definitions above) -/

/-- A step whose action log decodes as `LogTools` whose `tools` payload
decodes as a tool-call batch. -/
def stepDecodes (s : AgentAction × String) : Bool :=
  match decodeLogTools s.1.log with
  | some lt => (decodeFCRList lt.tools).isSome
  | none => false

/-- A step whose action log decodes as `LogTools` (the weaker condition the
Memory flush needs). -/
def stepLogDecodes (s : AgentAction × String) : Bool :=
  (decodeLogTools s.1.log).isSome

/-- The tool-result message a step contributes to the scratchpad. -/
def stepToolMsg (s : AgentAction × String) : Message :=
  Message.newToolMessage s.2 (((decodeLogTools s.1.log).map LogTools.tool_id).getD "")

/-- The assistant tool-call message built from a step's decoded batch (the
scratchpad re-encodes the decoded `Vec<FunctionCallResponse>`). -/
def stepAiMsg (s : AgentAction × String) : Message :=
  (Message.newAiMessage "").withToolCalls
    (encodeFCRList (((decodeLogTools s.1.log).bind fun lt => decodeFCRList lt.tools).getD []))

/-- The message-group sequence the Memory flush appends for a step list,
given the already-seen payload set: assistant message on first sighting of a
payload, then a tool message per step. -/
def groupsFrom (seen : List Json) : List (AgentAction × String) → List Message
  | [] => []
  | (a, o) :: rest =>
    match decodeLogTools a.log with
    | none => groupsFrom seen rest
    | some lt =>
      if lt.tools ∈ seen then
        Message.newToolMessage o lt.tool_id :: groupsFrom seen rest
      else
        (Message.newAiMessage "").withToolCalls lt.tools ::
          Message.newToolMessage o lt.tool_id :: groupsFrom (seen ++ [lt.tools]) rest

/-- The single tool call a delta addresses (`delta.tool_calls[0]`). -/
def deltaToolCall? (delta : Json) : Option Json :=
  ((delta.get? "tool_calls").bind Json.asArr?).bind List.head?

/-- The function name carried by a delta, if any. -/
def deltaName? (delta : Json) : Option String :=
  (deltaToolCall? delta).bind fun tc =>
    (tc.get? "function").bind fun f => (f.get? "name").bind Json.asStr?

/-- The argument fragment carried by a delta (empty when absent). -/
def deltaArgs (delta : Json) : String :=
  ((deltaToolCall? delta).bind fun tc =>
    (tc.get? "function").bind fun f => (f.get? "arguments").bind Json.asStr?).getD ""

/-- The non-empty tool-call id carried by a delta, if any. -/
def deltaId? (delta : Json) : Option String :=
  ((deltaToolCall? delta).bind fun tc => (tc.get? "id").bind Json.asStr?).bind
    fun i => if i.isEmpty then none else some i

/-- Folding a whole delta sequence through the accumulator. -/
def accumulateAll (acc : ToolCallAccumulator) (ds : List Json) : ToolCallAccumulator :=
  ds.foldl (fun a d => (a.accumulate d).1) acc

/-- The last `some` value an extractor produces over a delta sequence
(`none` when it never fires). -/
def lastSome (f : Json → Option String) : List Json → Option String
  | [] => none
  | d :: ds => Option.or (lastSome f ds) (f d)

/-- Concatenation of a string list, in order. -/
def concatAll : List String → String
  | [] => ""
  | s :: rest => s ++ concatAll rest

/-- The `finish_reason` values the streaming path actually emits. -/
def allowedFinishReason (o : Option String) : Prop :=
  o = none ∨ o = some "" ∨ o = some "stop" ∨ o = some "length"

/-! ## Concrete fixtures for counterexamples and witnesses -/

def fcrOf (i n a : String) : FunctionCallResponse := ⟨i, "function", ⟨n, a⟩⟩

def logOf (i : String) (ts : List FunctionCallResponse) : Json :=
  encodeLogTools ⟨i, encodeFCRList ts⟩

def stepA : AgentAction × String :=
  (⟨"toolA", "\x7b\x7d", logOf "id1" [fcrOf "id1" "toolA" "\x7b\x7d"]⟩, "obsA")

def stepB : AgentAction × String :=
  (⟨"toolB", "\x7b\x7d", logOf "id2" [fcrOf "id2" "toolB" "\x7b\x7d"]⟩, "obsB")

def toolOk : ToolM := ⟨"t", fun _ => .ok "ok-result"⟩

def toolFail : ToolM := ⟨"t", fun _ => .error "boom"⟩

def actT : AgentAction := ⟨"t", "\x7b\x7d", logOf "c1" [fcrOf "c1" "t" "\x7b\x7d"]⟩

/-- A streaming scenario: one content fragment and a one-action batch in
cycle one, `Finish` in cycle two. -/
def envStream1 : StreamEnv :=
  ⟨fun steps =>
    if steps.length == 0 then
      .ok [.ok (.Delta (.Content "thinking")), .ok (.Final (.Action [actT]))]
    else .ok [.ok (.Final (.Finish ⟨"done"⟩))],
   [toolOk], false, some 10, some [], "hi", "conv", fun n => "mint" ++ toString n⟩

/-- The finalized tool call `take_action` produces from an accumulator whose
id is `i` and name is `n`. -/
def takenFCR (acc : ToolCallAccumulator) (i n : String) : FunctionCallResponse :=
  ⟨i, "function", ⟨n, if (rustTrim acc.args).isEmpty then "\x7b\x7d" else acc.args⟩⟩

/-- A model output that is a serialized one-element function-call array. -/
def fcrArrayText : String :=
  "[\x7b\"id\":\"c1\",\"type\":\"function\",\"function\":\x7b\"name\":\"t\",\"arguments\":\"\x7b\x7d\"\x7d\x7d]"

/-- The JSON value `fcrArrayText` parses to. -/
def fcrArrayJson : Json :=
  .arr [.obj [("id", .str "c1"), ("type", .str "function"),
              ("function", .obj [("name", .str "t"), ("arguments", .str "\x7b\x7d")])]]

/-- A delta carrying tool-call id `"a"`, a name and an argument fragment. -/
def deltaIdA : Json :=
  .obj [("tool_calls", .arr [.obj [("id", .str "a"),
    ("function", .obj [("name", .str "f"), ("arguments", .str "x")])]])]

/-- A later delta carrying a different non-empty id `"b"`. -/
def deltaIdB : Json :=
  .obj [("tool_calls", .arr [.obj [("id", .str "b"),
    ("function", .obj [("arguments", .str "y")])]])]

/-- A delta whose only payload is the argument fragment `{"a":`. -/
def deltaFragOpen : Json :=
  .obj [("tool_calls", .arr [.obj [("function",
    .obj [("arguments", .str "\x7b\"a\":")])]])]

/-- A delta whose only payload is the argument fragment `3}`. -/
def deltaFragClose : Json :=
  .obj [("tool_calls", .arr [.obj [("function",
    .obj [("arguments", .str "3\x7d")])]])]

instance {e a : Type} [DecidableEq e] [DecidableEq a] : DecidableEq (Except e a)
  | .error x, .error y =>
    if h : x = y then isTrue (h ▸ rfl) else isFalse fun q => h (Except.error.inj q)
  | .error _, .ok _ => isFalse nofun
  | .ok _, .error _ => isFalse nofun
  | .ok x, .ok y =>
    if h : x = y then isTrue (h ▸ rfl) else isFalse fun q => h (Except.ok.inj q)

/-! # Theorems -/

/-! ## Scratchpad rendering (C1) -/

theorem appendSteps_of_ne_nil (steps : List (AgentAction × String)) :
    ∀ thoughts : List Message, steps.all stepDecodes = true → thoughts ≠ [] →
      appendSteps steps thoughts = .ok (thoughts ++ steps.map stepToolMsg) := by
  induction steps with
  | nil => intro thoughts _ _; simp [appendSteps]
  | cons s rest ih =>
    obtain ⟨a, o⟩ := s
    intro thoughts hall hne
    simp only [List.all_cons, Bool.and_eq_true] at hall
    obtain ⟨hs, hrest⟩ := hall
    simp only [stepDecodes] at hs
    cases hd : decodeLogTools a.log with
    | none => rw [hd] at hs; simp at hs
    | some lt =>
      rw [hd] at hs
      simp only [Option.isSome] at hs
      cases hf : decodeFCRList lt.tools with
      | none => rw [hf] at hs; simp at hs
      | some fcrs =>
        have hth : thoughts.isEmpty = false := by
          cases thoughts with
          | nil => exact absurd rfl hne
          | cons x l => rfl
        have h1 : append_to_conversation (a, o) thoughts =
            .ok (thoughts ++ [Message.newToolMessage o lt.tool_id]) := by
          simp [append_to_conversation, hd, hf, hth]
        have h2 : stepToolMsg (a, o) = Message.newToolMessage o lt.tool_id := by
          simp [stepToolMsg, hd]
        have h3 := ih (thoughts ++ [Message.newToolMessage o lt.tool_id]) hrest (by simp)
        simp [appendSteps, h1, h2, h3]

theorem appendSteps_from_nil (steps : List (AgentAction × String))
    (h : steps.all stepDecodes = true) :
    appendSteps steps [] = .ok
      ((match steps with
        | [] => ([] : List Message)
        | s :: _ => [stepAiMsg s]) ++ steps.map stepToolMsg) := by
  cases steps with
  | nil => simp [appendSteps]
  | cons s rest =>
    obtain ⟨a, o⟩ := s
    simp only [List.all_cons, Bool.and_eq_true] at h
    obtain ⟨hs, hrest⟩ := h
    simp only [stepDecodes] at hs
    cases hd : decodeLogTools a.log with
    | none => rw [hd] at hs; simp at hs
    | some lt =>
      rw [hd] at hs
      cases hf : decodeFCRList lt.tools with
      | none => simp [hf] at hs
      | some fcrs =>
        have h1 : append_to_conversation (a, o) [] = .ok
            [(Message.newAiMessage "").withToolCalls (encodeFCRList fcrs),
             Message.newToolMessage o lt.tool_id] := by
          simp [append_to_conversation, hd, hf]
        have h2 : stepToolMsg (a, o) = Message.newToolMessage o lt.tool_id := by
          simp [stepToolMsg, hd]
        have h3 : stepAiMsg (a, o) =
            (Message.newAiMessage "").withToolCalls (encodeFCRList fcrs) := by
          simp [stepAiMsg, hd, hf]
        have h4 := appendSteps_of_ne_nil rest
          [(Message.newAiMessage "").withToolCalls (encodeFCRList fcrs),
           Message.newToolMessage o lt.tool_id] hrest (by simp)
        simp [appendSteps, h1, h2, h3, h4]

/-- C1, amended: for a decodable step list of length at most 10 the
Scratchpad Builder emits no summary message and renders, in order, one
assistant tool-call message for the first step only (the assistant message
is emitted only while the message list is still empty, not once per distinct
payload) followed by one tool-result message per step; for length L > 10 it
emits exactly one summary message covering the first L-5 steps followed by
the tool-result messages of the last 5 steps, with no assistant message at
all (the summary occupies the list, so the emptiness test never fires). -/
theorem construct_scratchpad_spec (steps : List (AgentAction × String))
    (h : steps.all stepDecodes = true) :
    OpenAIMcpAgent.construct_scratchpad steps =
      if steps.length > OpenAIMcpAgent.SUMMARY_THRESHOLD then
        .ok (OpenAIMcpAgent.create_summary_message
              (steps.take (steps.length - OpenAIMcpAgent.MAX_STEPS)) ::
             (steps.drop (steps.length - OpenAIMcpAgent.MAX_STEPS)).map stepToolMsg)
      else
        .ok ((match steps with
              | [] => ([] : List Message)
              | s :: _ => [stepAiMsg s]) ++ steps.map stepToolMsg) := by
  unfold OpenAIMcpAgent.construct_scratchpad
  split
  · have hdrop : (steps.drop (steps.length - OpenAIMcpAgent.MAX_STEPS)).all
        stepDecodes = true := by
      rw [List.all_eq_true] at h ⊢
      intro x hx
      exact h x (List.mem_of_mem_drop hx)
    rw [appendSteps_of_ne_nil _ _ hdrop (by simp)]
    simp
  · exact appendSteps_from_nil steps h

/-- C1, witness: a single decodable step renders as its assistant tool-call
message followed by its tool-result message. -/
theorem construct_scratchpad_spec_witness :
    OpenAIMcpAgent.construct_scratchpad [stepA] = .ok
      [(Message.newAiMessage "").withToolCalls
         (encodeFCRList [fcrOf "id1" "toolA" "\x7b\x7d"]),
       Message.newToolMessage "obsA" "id1"] :=
  (construct_scratchpad_spec [stepA] (by decide)).trans (by decide)

/-- C1, counterexample to the claim as stated: two steps whose serialized
tool-call payloads differ render as ONE assistant message followed by the
two tool-result messages — the second step gets no assistant message of its
own, so rendering is not one message-pair per step with payload-level
deduplication. -/
theorem construct_scratchpad_two_steps_cex :
    OpenAIMcpAgent.construct_scratchpad [stepA, stepB] = .ok
      [(Message.newAiMessage "").withToolCalls
         (encodeFCRList [fcrOf "id1" "toolA" "\x7b\x7d"]),
       Message.newToolMessage "obsA" "id1",
       Message.newToolMessage "obsB" "id2"] ∧
    encodeFCRList [fcrOf "id1" "toolA" "\x7b\x7d"] ≠
      encodeFCRList [fcrOf "id2" "toolB" "\x7b\x7d"] := by
  exact ⟨by decide, by decide⟩

/-! ## Memory persistence at Finish (C2) -/

theorem flushStepsSkipBad_spec (steps : List (AgentAction × String)) :
    ∀ (mem : List Message) (seen : List Json),
      flushStepsSkipBad mem seen steps = mem ++ groupsFrom seen steps := by
  induction steps with
  | nil => intro mem seen; simp [flushStepsSkipBad, groupsFrom]
  | cons s rest ih =>
    obtain ⟨a, o⟩ := s
    intro mem seen
    cases hd : decodeLogTools a.log with
    | none => simp [flushStepsSkipBad, groupsFrom, hd, ih]
    | some lt =>
      by_cases hmem : lt.tools ∈ seen
      · simp [flushStepsSkipBad, groupsFrom, hd, hmem, ih]
      · simp [flushStepsSkipBad, groupsFrom, hd, hmem, ih]

theorem flushStepsStrict_spec (steps : List (AgentAction × String)) :
    ∀ (mem : List Message) (seen : List Json), steps.all stepLogDecodes = true →
      flushStepsStrict mem seen steps = .ok (mem ++ groupsFrom seen steps) := by
  induction steps with
  | nil => intro mem seen _; simp [flushStepsStrict, groupsFrom]
  | cons s rest ih =>
    obtain ⟨a, o⟩ := s
    intro mem seen hall
    simp only [List.all_cons, Bool.and_eq_true] at hall
    obtain ⟨hs, hrest⟩ := hall
    simp only [stepLogDecodes] at hs
    cases hd : decodeLogTools a.log with
    | none => simp [hd] at hs
    | some lt =>
      by_cases hmem : lt.tools ∈ seen
      · simp [flushStepsStrict, groupsFrom, hd, hmem, ih _ _ hrest]
      · simp [flushStepsStrict, groupsFrom, hd, hmem, ih _ _ hrest]

/-- C2, amended: with a memory configured and every recorded step's log
decodable, the streaming `Finish` arm persists the turn like the synchronous
`Finish` arm EXCEPT for the user message: the stream adds it only when no
step was recorded (both the cross-cycle and cycle-local step lists empty),
whereas the synchronous arm adds it unconditionally; the deduplicated
assistant+tool-result step groups and the final assistant output message are
identical (here with no accumulated cycle content, which only the stream
would additionally flush). -/
theorem persistFinishStream_vs_sync (mem : List Message) (input : String)
    (steps cur : List (AgentAction × String)) (out : String)
    (h : steps.all stepLogDecodes = true) :
    persistFinishStream mem input steps cur "" out =
      mem ++ (if steps.isEmpty && cur.isEmpty then [Message.newHumanMessage input] else [])
          ++ groupsFrom [] steps ++ [Message.newAiMessage out] ∧
    persistFinishSync mem input steps out =
      .ok (mem ++ [Message.newHumanMessage input] ++ groupsFrom [] steps
           ++ [Message.newAiMessage out]) := by
  constructor
  · unfold persistFinishStream
    have he : ("".isEmpty) = true := rfl
    by_cases hc : (steps.isEmpty && cur.isEmpty) = true
    · simp [hc, he, flushStepsSkipBad_spec]
    · simp only [Bool.not_eq_true] at hc
      simp [hc, he, flushStepsSkipBad_spec]
  · unfold persistFinishSync
    rw [flushStepsStrict_spec steps _ _ h]

/-- C2, witness: at a one-step turn the stream arm and the sync arm produce
their respective message sequences (the stream one lacking the user
message). -/
theorem persistFinishStream_vs_sync_witness :
    [stepA].all stepLogDecodes = true ∧
    (persistFinishStream [] "hi" [stepA] [] "" "out" =
      [] ++ (if [stepA].isEmpty && ([] : List (AgentAction × String)).isEmpty
             then [Message.newHumanMessage "hi"] else [])
          ++ groupsFrom [] [stepA] ++ [Message.newAiMessage "out"] ∧
     persistFinishSync [] "hi" [stepA] "out" =
      .ok ([] ++ [Message.newHumanMessage "hi"] ++ groupsFrom [] [stepA]
           ++ [Message.newAiMessage "out"])) :=
  ⟨by decide, persistFinishStream_vs_sync [] "hi" [stepA] [] "out" (by decide)⟩

/-- C2, counterexample to the claim as stated: same memory, input, recorded
step and output, yet the streaming `Finish` arm writes no user message while
the synchronous arm does — the turn is NOT persisted "exactly" alike, the
user message is not added unconditionally. -/
theorem persistFinishStream_drops_user_message_cex :
    persistFinishStream [] "hi" [stepA] [] "" "out" =
      [(Message.newAiMessage "").withToolCalls
         (encodeFCRList [fcrOf "id1" "toolA" "\x7b\x7d"]),
       Message.newToolMessage "obsA" "id1", Message.newAiMessage "out"] ∧
    persistFinishSync [] "hi" [stepA] "out" =
      .ok [Message.newHumanMessage "hi",
       (Message.newAiMessage "").withToolCalls
         (encodeFCRList [fcrOf "id1" "toolA" "\x7b\x7d"]),
       Message.newToolMessage "obsA" "id1", Message.newAiMessage "out"] ∧
    (Message.newHumanMessage "hi") ∉
      persistFinishStream [] "hi" [stepA] [] "" "out" := by
  refine ⟨by decide, by decide, by decide⟩

/-! ## Delta accumulation (C3) -/

theorem accumulate_state (acc : ToolCallAccumulator) (d : Json) :
    (acc.accumulate d).1 =
      ⟨Option.or (deltaName? d) acc.name,
       acc.args ++ deltaArgs d,
       Option.or (deltaId? d) acc.id⟩ := by
  unfold ToolCallAccumulator.accumulate deltaName? deltaArgs deltaId? deltaToolCall?
  cases htc : ((d.get? "tool_calls").bind Json.asArr?).bind List.head? with
  | none => simp [Option.or]
  | some tc =>
    cases hf : tc.get? "function" with
    | none =>
      cases hid : (tc.get? "id").bind Json.asStr? with
      | none => simp [hf, hid, Option.or]
      | some i =>
        by_cases hie : i.isEmpty = true
        · simp [hf, hid, hie, Option.or]
        · simp [hf, hid, hie, Option.or]
    | some f =>
      cases hn : (f.get? "name").bind Json.asStr? <;>
        cases ha : (f.get? "arguments").bind Json.asStr? <;>
        cases hid : (tc.get? "id").bind Json.asStr? <;>
        first
        | (simp [hf, hn, ha, hid, Option.or]; done)
        | (rename_i i
           by_cases hie : i.isEmpty = true <;>
             simp [hf, hn, ha, hid, hie, Option.or])

/-- C3, amended: over any delta sequence, the argument fragments are all
appended in order, the name is updated whenever present (last write wins),
and the id is updated whenever a NON-EMPTY id string is present — also last
write wins, a later non-empty id replaces an earlier one; only absent,
non-string or empty ids leave it untouched. -/
theorem accumulateAll_spec (ds : List Json) :
    ∀ acc : ToolCallAccumulator,
      (accumulateAll acc ds).name = Option.or (lastSome deltaName? ds) acc.name ∧
      (accumulateAll acc ds).args = acc.args ++ concatAll (ds.map deltaArgs) ∧
      (accumulateAll acc ds).id = Option.or (lastSome deltaId? ds) acc.id := by
  induction ds with
  | nil => intro acc; simp [accumulateAll, lastSome, concatAll, Option.or]
  | cons d ds ih =>
    intro acc
    have hfold : accumulateAll acc (d :: ds) = accumulateAll (acc.accumulate d).1 ds := by
      simp [accumulateAll]
    obtain ⟨h1, h2, h3⟩ := ih (acc.accumulate d).1
    rw [accumulate_state acc d] at h1 h2 h3
    refine ⟨?_, ?_, ?_⟩
    · rw [hfold, accumulate_state acc d] at *
      rw [h1]
      simp [lastSome, Option.or_assoc]
    · rw [hfold, accumulate_state acc d] at *
      rw [h2]
      simp [concatAll, String.append_assoc]
    · rw [hfold, accumulate_state acc d] at *
      rw [h3]
      simp [lastSome, Option.or_assoc]

/-- C3, counterexample to the claim as stated: the id is `"a"` after its
first sighting, but a later delta carrying the non-empty id `"b"`
OVERWRITES it — the id is not "recorded on first sighting and never
overwritten". -/
theorem accumulate_overwrites_id_cex :
    (accumulateAll ToolCallAccumulator.new [deltaIdA]).id = some "a" ∧
    (accumulateAll ToolCallAccumulator.new [deltaIdA, deltaIdB]).id = some "b" ∧
    (some "b" : Option String) ≠ some "a" :=
  ⟨by decide, by decide, by decide⟩

/-! ## take_action (C7) -/

/-- C7: `take_action` returns an Action whose `tool_input` is the
concatenated argument buffer, substituting the canonical empty JSON object
when the buffer is empty or whitespace-only; it resets only the argument
buffer while the stored id and name persist.  In particular accumulating
the fragments `{"a":` and `3}` and then taking yields `{"a":3}`. -/
theorem take_action_spec :
    (∀ acc : ToolCallAccumulator,
       acc.take_action.2.tool_input =
         (if (rustTrim acc.args).isEmpty then "\x7b\x7d" else acc.args) ∧
       acc.take_action.1 = ⟨acc.name, "", acc.id⟩) ∧
    ((ToolCallAccumulator.new.accumulate deltaFragOpen).1.accumulate
        deltaFragClose).1.take_action.2.tool_input = "\x7b\"a\":3\x7d" := by
  refine ⟨fun acc => ⟨?_, rfl⟩, by decide⟩
  simp [ToolCallAccumulator.take_action, ToolCallAccumulator.to_action_chunk]

/-! ## Log round-trip from accumulator to scratchpad (C9) -/

theorem decodeLogTools_encodeLogTools (lt : LogTools) :
    decodeLogTools (encodeLogTools lt) = some lt := by
  simp [decodeLogTools, encodeLogTools, Json.get?, Json.asStr?, List.lookup]

theorem decodeFCR_encodeFCR (t : FunctionCallResponse) :
    decodeFCR (encodeFCR t) = some t := by
  simp [decodeFCR, encodeFCR, Json.get?, Json.asStr?, List.lookup]

theorem mapM_loop_decode_encode (l : List FunctionCallResponse) :
    ∀ accR : List FunctionCallResponse,
      List.mapM.loop decodeFCR (l.map encodeFCR) accR = some (accR.reverse ++ l) := by
  induction l with
  | nil => intro accR; simp [List.mapM.loop]
  | cons t rest ih =>
    intro accR
    simp [List.mapM.loop, decodeFCR_encodeFCR, ih (t :: accR)]

theorem decodeFCRList_encodeFCRList (l : List FunctionCallResponse) :
    decodeFCRList (encodeFCRList l) = some l := by
  simp [decodeFCRList, encodeFCRList, Json.asArr?, List.mapM,
    mapM_loop_decode_encode l []]

/-- C9: an Action finalized by the accumulator (with an accumulated id and
name) carries a log that decodes back to a `LogTools` record holding that id
and the one-element serialized tool-call array (id, name, processed
arguments); the scratchpad renderer decodes exactly that array and builds
the step's assistant message from it, followed by the tool-result message
under the same id — the log round-trips losslessly from accumulator to
scratchpad. -/
theorem accumulator_log_roundtrip (acc : ToolCallAccumulator) (i n obs : String)
    (hid : acc.id = some i) (hname : acc.name = some n) :
    decodeLogTools acc.take_action.2.log =
      some ⟨i, encodeFCRList [takenFCR acc i n]⟩ ∧
    decodeFCRList (encodeFCRList [takenFCR acc i n]) = some [takenFCR acc i n] ∧
    append_to_conversation (acc.take_action.2, obs) [] = .ok
      [(Message.newAiMessage "").withToolCalls (encodeFCRList [takenFCR acc i n]),
       Message.newToolMessage obs i] := by
  have hlog : acc.take_action.2.log =
      encodeLogTools ⟨i, encodeFCRList [takenFCR acc i n]⟩ := by
    simp [ToolCallAccumulator.take_action, ToolCallAccumulator.to_action_chunk,
      hid, hname, encodeLogTools, encodeFCRList, encodeFCR, takenFCR, jsonOfOptStr]
  have h1 : decodeLogTools acc.take_action.2.log =
      some ⟨i, encodeFCRList [takenFCR acc i n]⟩ := by
    rw [hlog, decodeLogTools_encodeLogTools]
  have h2 := decodeFCRList_encodeFCRList [takenFCR acc i n]
  refine ⟨h1, h2, ?_⟩
  simp [append_to_conversation, h1, h2]

/-- C9, witness: a drained accumulator with id `c1`, name `t` and an empty
argument buffer round-trips into the scratchpad messages. -/
theorem accumulator_log_roundtrip_witness :
    (⟨some "t", "", some "c1"⟩ : ToolCallAccumulator).id = some "c1" ∧
    (decodeLogTools (⟨some "t", "", some "c1"⟩ : ToolCallAccumulator).take_action.2.log =
      some ⟨"c1", encodeFCRList [takenFCR ⟨some "t", "", some "c1"⟩ "c1" "t"]⟩ ∧
     decodeFCRList (encodeFCRList [takenFCR ⟨some "t", "", some "c1"⟩ "c1" "t"]) =
      some [takenFCR ⟨some "t", "", some "c1"⟩ "c1" "t"] ∧
     append_to_conversation ((⟨some "t", "", some "c1"⟩ : ToolCallAccumulator).take_action.2, "obs") [] = .ok
      [(Message.newAiMessage "").withToolCalls
         (encodeFCRList [takenFCR ⟨some "t", "", some "c1"⟩ "c1" "t"]),
       Message.newToolMessage "obs" "c1"]) :=
  ⟨rfl, accumulator_log_roundtrip ⟨some "t", "", some "c1"⟩ "c1" "t" "obs" rfl rfl⟩

/-! ## Planner totality and shape (C10) -/

/-- C10: given a successfully built scratchpad, `plan` (and the identical
`plan_with_steps`) never fails on any model output: an output decoding as a
function-call array yields an `Action` event with one action per entry in
array order, each log carrying that entry's id together with the whole
output (its parsed value, at this model's value level); any other output
yields a `Finish` event carrying the raw text — never an error. -/
theorem plan_never_errs (steps : List (AgentAction × String)) (output : String)
    (msgs : List Message)
    (hscr : OpenAIMcpAgent.construct_scratchpad steps = .ok msgs) :
    (∀ j l, Json.parse output = some j → decodeFCRList j = some l →
      OpenAIMcpAgent.plan steps output = .ok (.Action (l.map fun tool =>
        ⟨tool.function.name, tool.function.arguments, encodeLogTools ⟨tool.id, j⟩⟩)) ∧
      OpenAIMcpAgent.plan_with_steps steps output = .ok (.Action (l.map fun tool =>
        ⟨tool.function.name, tool.function.arguments, encodeLogTools ⟨tool.id, j⟩⟩))) ∧
    ((Json.parse output).bind decodeFCRList = none →
      OpenAIMcpAgent.plan steps output = .ok (.Finish ⟨output⟩) ∧
      OpenAIMcpAgent.plan_with_steps steps output = .ok (.Finish ⟨output⟩)) := by
  constructor
  · intro j l hj hl
    constructor <;>
      simp [OpenAIMcpAgent.plan, OpenAIMcpAgent.plan_with_steps, hscr, hj, hl]
  · intro hnone
    cases hj : Json.parse output with
    | none =>
      constructor <;>
        simp [OpenAIMcpAgent.plan, OpenAIMcpAgent.plan_with_steps, hscr, hj]
    | some j =>
      rw [hj] at hnone
      simp only [Option.some_bind] at hnone
      constructor <;>
        simp [OpenAIMcpAgent.plan, OpenAIMcpAgent.plan_with_steps, hscr, hj, hnone]

/-- C10, witness: on empty steps, raw text finishes and a one-entry
function-call array yields the corresponding one-action batch. -/
theorem plan_never_errs_witness :
    (OpenAIMcpAgent.plan [] "plain text" = .ok (.Finish ⟨"plain text"⟩) ∧
     OpenAIMcpAgent.plan_with_steps [] "plain text" = .ok (.Finish ⟨"plain text"⟩)) ∧
    (OpenAIMcpAgent.plan [] fcrArrayText = .ok (.Action
       ([fcrOf "c1" "t" "\x7b\x7d"].map fun tool =>
         ⟨tool.function.name, tool.function.arguments,
          encodeLogTools ⟨tool.id, fcrArrayJson⟩⟩)) ∧
     OpenAIMcpAgent.plan_with_steps [] fcrArrayText = .ok (.Action
       ([fcrOf "c1" "t" "\x7b\x7d"].map fun tool =>
         ⟨tool.function.name, tool.function.arguments,
          encodeLogTools ⟨tool.id, fcrArrayJson⟩⟩))) :=
  ⟨(plan_never_errs [] "plain text" [] rfl).2 (by decide),
   (plan_never_errs [] fcrArrayText [] rfl).1 fcrArrayJson
     [fcrOf "c1" "t" "\x7b\x7d"] (by decide) (by decide)⟩

/-! ## Synchronous error policy (C5) -/

/-- C5: in `call`, an action whose normalized tool name has no match in the
tool table is a fatal error regardless of `break_if_error`; a resolved tool
whose invocation fails is fatal with `break_if_error = true`, aborting the
whole call after that one attempted step with no retry (the planner is never
consulted again, whatever fuel remains); with `break_if_error = false` the
failure becomes an observation string embedding the tool's error text, the
step is recorded, and the loop continues planning from that recorded step. -/
theorem call_error_policy
    (tools : List ToolM) (mem : Option (List Message)) (input : String)
    (maxIt : Option Int) (a : AgentAction)
    (plan : List (AgentAction × String) → Except String AgentEvent)
    (fuel : Nat) (err : String) :
    (lookupTool tools (normalizeName a.tool) = none →
     plan [] = .ok (.Action [a]) →
     ∀ brk, call ⟨plan, tools, brk, maxIt, mem, input⟩ (fuel + 1) =
       some (.error (.agentError ("Tool " ++ a.tool ++ " not found")))) ∧
    (∀ tool, lookupTool tools (normalizeName a.tool) = some tool →
     tool.call a.tool_input = .error err →
     plan [] = .ok (.Action [a]) →
     call ⟨plan, tools, true, maxIt, mem, input⟩ (fuel + 1) =
       some (.error (.agentError err))) ∧
    (∀ tool, lookupTool tools (normalizeName a.tool) = some tool →
     tool.call a.tool_input = .error err →
     plan [] = .ok (.Action [a]) →
     (∀ m, maxIt = some m → 1 < i32AsUsize m) →
     call ⟨plan, tools, false, maxIt, mem, input⟩ (fuel + 1) =
       callLoop ⟨plan, tools, false, maxIt, mem, input⟩ fuel
         [(a, "The tool return the following error: " ++ err)]) := by
  refine ⟨?_, ?_, ?_⟩
  · intro hlk hplan brk
    simp [call, callLoop, hplan, processActions, hlk]
  · intro tool hlk hcall hplan
    simp [call, callLoop, hplan, processActions, hlk, hcall]
  · intro tool hlk hcall hplan hmax
    cases hmi : maxIt with
    | none => simp [call, callLoop, hplan, processActions, hlk, hcall]
    | some m =>
      have hlt := hmax m hmi
      simp [call, callLoop, hplan, processActions, hlk, hcall, Nat.not_le.mpr hlt]

/-- C5, witness: a missing tool aborts under both policies; a failing tool
aborts when `break_if_error` is true and is degraded to an inline
observation (after which the next cycle finishes) when false. -/
theorem call_error_policy_witness :
    (call ⟨fun _ => .ok (.Action [⟨"nope", "", .null⟩]), [toolFail], true,
       some 5, none, "in"⟩ 1 =
     some (.error (.agentError ("Tool " ++ "nope" ++ " not found")))) ∧
    (call ⟨fun _ => .ok (.Action [actT]), [toolFail], true, some 5, none, "in"⟩ 1 =
     some (.error (.agentError "boom"))) ∧
    (call ⟨fun steps => if steps.isEmpty then .ok (.Action [actT])
             else .ok (.Finish ⟨"done"⟩), [toolFail], false, some 5, none, "in"⟩ 2 =
     callLoop ⟨fun steps => if steps.isEmpty then .ok (.Action [actT])
             else .ok (.Finish ⟨"done"⟩), [toolFail], false, some 5, none, "in"⟩ 1
       [(actT, "The tool return the following error: " ++ "boom")]) :=
  ⟨(call_error_policy [toolFail] none "in" (some 5) ⟨"nope", "", .null⟩
      (fun _ => .ok (.Action [⟨"nope", "", .null⟩])) 0 "boom").1 rfl rfl true,
   (call_error_policy [toolFail] none "in" (some 5) actT
      (fun _ => .ok (.Action [actT])) 0 "boom").2.1 toolFail rfl rfl rfl,
   (call_error_policy [toolFail] none "in" (some 5) actT
      (fun steps => if steps.isEmpty then .ok (.Action [actT])
        else .ok (.Finish ⟨"done"⟩)) 1 "boom").2.2 toolFail rfl rfl rfl
     (fun m hm => by cases hm; decide)⟩

/-! ## Iteration cap termination (C6) -/

theorem callLoop_max_iter_aux
    (plan : List (AgentAction × String) → Except String AgentEvent)
    (tools : List ToolM) (brk : Bool) (mem : Option (List Message))
    (input : String) (m : Int) (tool : ToolM) (a : AgentAction) (r : String)
    (hplan : ∀ steps, plan steps = .ok (.Action [a]))
    (hlk : lookupTool tools (normalizeName a.tool) = some tool)
    (hcall : tool.call a.tool_input = .ok r) :
    ∀ (fuel : Nat) (steps : List (AgentAction × String)),
      steps.length < i32AsUsize m → i32AsUsize m ≤ steps.length + fuel →
      callLoop ⟨plan, tools, brk, some m, mem, input⟩ fuel steps =
        some (.ok ⟨"Max iterations reached", mem,
          steps ++ List.replicate (i32AsUsize m - steps.length) (a, r)⟩) := by
  intro fuel
  induction fuel with
  | zero => intro steps h1 h2; omega
  | succ n ih =>
    intro steps h1 h2
    by_cases hc : i32AsUsize m ≤ steps.length + 1
    · have hrep : i32AsUsize m - steps.length = 1 := by omega
      simp [callLoop, hplan, processActions, hlk, hcall, hc, hrep]
    · have h3 : (steps ++ [(a, r)]).length < i32AsUsize m := by
        simp only [List.length_append, List.length_cons, List.length_nil]
        omega
      have h4 : i32AsUsize m ≤ (steps ++ [(a, r)]).length + n := by
        simp only [List.length_append, List.length_cons, List.length_nil]
        omega
      have hrec := ih (steps ++ [(a, r)]) h3 h4
      have hrep : i32AsUsize m - steps.length =
          (i32AsUsize m - (steps.length + 1)) + 1 := by omega
      simp only [callLoop, hplan, processActions, hlk, hcall]
      rw [List.length_append] at hrec ⊢
      simp only [List.length_cons, List.length_nil] at hrec
      simp [hc, hrec, hrep, List.replicate_succ, List.append_assoc]

/-- C6: with a positive `max_iterations = m`, a planner that always returns
a single-action batch for an always-succeeding tool, and enough fuel,
`call` terminates successfully with the fixed sentinel output
"Max iterations reached" and exactly `m` recorded steps — never more. -/
theorem call_max_iterations
    (plan : List (AgentAction × String) → Except String AgentEvent)
    (tools : List ToolM) (brk : Bool) (mem : Option (List Message))
    (input : String) (m : Int) (tool : ToolM) (a : AgentAction) (r : String)
    (fuel : Nat)
    (hm1 : 1 ≤ m) (hm2 : m < 2147483648)
    (hplan : ∀ steps, plan steps = .ok (.Action [a]))
    (hlk : lookupTool tools (normalizeName a.tool) = some tool)
    (hcall : tool.call a.tool_input = .ok r)
    (hfuel : m.toNat ≤ fuel) :
    call ⟨plan, tools, brk, some m, mem, input⟩ fuel =
      some (.ok ⟨"Max iterations reached", mem, List.replicate m.toNat (a, r)⟩) := by
  have husize : i32AsUsize m = m.toNat := by
    unfold i32AsUsize
    rw [Int.emod_eq_of_lt (by omega) (by omega)]
  have h := callLoop_max_iter_aux plan tools brk mem input m tool a r
    hplan hlk hcall fuel []
    (by simp [husize]; omega) (by simp [husize]; omega)
  simpa [call, husize] using h

/-- C6, witness: `max_iterations = 2` with a constant one-action planner and
an always-succeeding tool stops at exactly 2 recorded steps. -/
theorem call_max_iterations_witness :
    call ⟨fun _ => .ok (.Action [actT]), [toolOk], false, some 2, none, "in"⟩ 2 =
      some (.ok ⟨"Max iterations reached", none,
        List.replicate (2 : Int).toNat (actT, "ok-result")⟩) :=
  call_max_iterations (fun _ => .ok (.Action [actT])) [toolOk] false none "in"
    2 toolOk actT "ok-result" 2 (by decide) (by decide) (fun _ => rfl) rfl rfl
    (by decide)

/-! ## Stream chunk invariants (C4, C8) -/

theorem processBatch_chunks_allowed (env : StreamEnv) (actions : List AgentAction) :
    ∀ steps cur ctr c, c ∈ (processBatch env actions steps cur ctr).chunks →
      allowedFinishReason c.finish_reason := by
  induction actions with
  | nil => intro steps cur ctr c hc; simp [processBatch, BatchOut.chunks] at hc
  | cons a rest ih =>
    intro steps cur ctr c hc
    unfold processBatch at hc
    dsimp only at hc
    cases hlk : lookupTool env.tools (normalizeName a.tool) with
    | none =>
      rw [hlk] at hc
      simp only [BatchOut.chunks, List.mem_singleton] at hc
      subst hc
      simp [allowedFinishReason, contentStopChunk]
    | some tool =>
      rw [hlk] at hc
      dsimp only at hc
      cases hcall : tool.call a.tool_input with
      | ok obs =>
        rw [hcall] at hc
        dsimp only at hc
        cases hrec : processBatch env rest (steps ++ [(a, obs)]) (cur ++ [(a, obs)])
            (match (a.log.get? "tool_id").bind Json.asStr? with
              | some s => (s, ctr)
              | none => (env.mint ctr, ctr + 1)).2 with
        | ended cs =>
          rw [hrec] at hc
          simp only [BatchOut.chunks, List.mem_cons] at hc
          rcases hc with hc | hc | hc
          · subst hc; simp [allowedFinishReason, finalToolCallChunk]
          · subst hc; simp [allowedFinishReason, observationChunk]
          · exact ih (steps ++ [(a, obs)]) (cur ++ [(a, obs)])
              ((match (a.log.get? "tool_id").bind Json.asStr? with
                | some s => (s, ctr)
                | none => (env.mint ctr, ctr + 1)).2) c
              (by rw [hrec]; simpa [BatchOut.chunks] using hc)
        | ok cs s2 c2 ct2 =>
          rw [hrec] at hc
          simp only [BatchOut.chunks, List.mem_cons] at hc
          rcases hc with hc | hc | hc
          · subst hc; simp [allowedFinishReason, finalToolCallChunk]
          · subst hc; simp [allowedFinishReason, observationChunk]
          · exact ih (steps ++ [(a, obs)]) (cur ++ [(a, obs)])
              ((match (a.log.get? "tool_id").bind Json.asStr? with
                | some s => (s, ctr)
                | none => (env.mint ctr, ctr + 1)).2) c
              (by rw [hrec]; simpa [BatchOut.chunks] using hc)
      | error err =>
        rw [hcall] at hc
        dsimp only at hc
        cases hbrk : env.breakIfError with
        | true =>
          rw [hbrk] at hc
          simp only [if_true, BatchOut.chunks, List.mem_cons,
            List.mem_singleton] at hc
          rcases hc with hc | hc | hc
          · subst hc; simp [allowedFinishReason, finalToolCallChunk]
          · subst hc; simp [allowedFinishReason, contentStopChunk]
          · simp at hc
        | false =>
          rw [hbrk] at hc
          simp only [Bool.false_eq_true, if_false] at hc
          cases hrec : processBatch env rest (steps ++ [(a, "Tool error: " ++ err)])
              (cur ++ [(a, "Tool error: " ++ err)])
              (match (a.log.get? "tool_id").bind Json.asStr? with
                | some s => (s, ctr)
                | none => (env.mint ctr, ctr + 1)).2 with
          | ended cs =>
            rw [hrec] at hc
            simp only [BatchOut.chunks, List.mem_cons] at hc
            rcases hc with hc | hc | hc
            · subst hc; simp [allowedFinishReason, finalToolCallChunk]
            · subst hc; simp [allowedFinishReason, observationChunk]
            · exact ih (steps ++ [(a, "Tool error: " ++ err)])
                (cur ++ [(a, "Tool error: " ++ err)])
                ((match (a.log.get? "tool_id").bind Json.asStr? with
                  | some s => (s, ctr)
                  | none => (env.mint ctr, ctr + 1)).2) c
                (by rw [hrec]; simpa [BatchOut.chunks] using hc)
          | ok cs s2 c2 ct2 =>
            rw [hrec] at hc
            simp only [BatchOut.chunks, List.mem_cons] at hc
            rcases hc with hc | hc | hc
            · subst hc; simp [allowedFinishReason, finalToolCallChunk]
            · subst hc; simp [allowedFinishReason, observationChunk]
            · exact ih (steps ++ [(a, "Tool error: " ++ err)])
                (cur ++ [(a, "Tool error: " ++ err)])
                ((match (a.log.get? "tool_id").bind Json.asStr? with
                  | some s => (s, ctr)
                  | none => (env.mint ctr, ctr + 1)).2) c
                (by rw [hrec]; simpa [BatchOut.chunks] using hc)

theorem lastChunk_cons (x : Chunk) (l : List Chunk) (cl : Chunk)
    (h : l.getLast? = some cl) : (x :: l).getLast? = some cl := by
  cases l with
  | nil => simp at h
  | cons y ys => rw [List.getLast?_cons_cons]; exact h

theorem lastChunk_append (cs cs2 : List Chunk) (cl : Chunk)
    (h : cs2.getLast? = some cl) : (cs ++ cs2).getLast? = some cl := by
  induction cs with
  | nil => simpa
  | cons x xs ih => rw [List.cons_append]; exact lastChunk_cons x _ cl ih

theorem processBatch_ended_last (env : StreamEnv) (actions : List AgentAction) :
    ∀ steps cur ctr cs, processBatch env actions steps cur ctr = .ended cs →
      ∃ cl, cs.getLast? = some cl ∧ cl.finish_reason.isSome := by
  induction actions with
  | nil => intro steps cur ctr cs h; simp [processBatch] at h
  | cons a rest ih =>
    intro steps cur ctr cs h
    unfold processBatch at h
    dsimp only at h
    cases hlk : lookupTool env.tools (normalizeName a.tool) with
    | none =>
      rw [hlk] at h
      cases h
      exact ⟨_, rfl, rfl⟩
    | some tool =>
      rw [hlk] at h
      dsimp only at h
      cases hcall : tool.call a.tool_input with
      | ok obs =>
        rw [hcall] at h
        dsimp only at h
        cases hrec : processBatch env rest (steps ++ [(a, obs)]) (cur ++ [(a, obs)])
            (match (a.log.get? "tool_id").bind Json.asStr? with
              | some s => (s, ctr)
              | none => (env.mint ctr, ctr + 1)).2 with
        | ended cs2 =>
          rw [hrec] at h
          cases h
          obtain ⟨cl, hcl, hs⟩ := ih _ _ _ cs2 hrec
          exact ⟨cl, lastChunk_cons _ _ _ (lastChunk_cons _ _ _ hcl), hs⟩
        | ok cs2 s2 c2 ct2 =>
          rw [hrec] at h
          cases h
      | error err =>
        rw [hcall] at h
        dsimp only at h
        cases hbrk : env.breakIfError with
        | true =>
          rw [hbrk] at h
          simp only [if_true] at h
          cases h
          exact ⟨_, rfl, rfl⟩
        | false =>
          rw [hbrk] at h
          simp only [Bool.false_eq_true, if_false] at h
          cases hrec : processBatch env rest (steps ++ [(a, "Tool error: " ++ err)])
              (cur ++ [(a, "Tool error: " ++ err)])
              (match (a.log.get? "tool_id").bind Json.asStr? with
                | some s => (s, ctr)
                | none => (env.mint ctr, ctr + 1)).2 with
          | ended cs2 =>
            rw [hrec] at h
            cases h
            obtain ⟨cl, hcl, hs⟩ := ih _ _ _ cs2 hrec
            exact ⟨cl, lastChunk_cons _ _ _ (lastChunk_cons _ _ _ hcl), hs⟩
          | ok cs2 s2 c2 ct2 =>
            rw [hrec] at h
            cases h

theorem processItems_chunks_allowed (env : StreamEnv)
    (items : List (Except String AgentEventChunk)) :
    ∀ acc cur steps mem ctr c,
      c ∈ (processItems env items acc cur steps mem ctr).chunks →
      allowedFinishReason c.finish_reason := by
  induction items with
  | nil => intro acc cur steps mem ctr c hc; simp [processItems, ItemsOut.chunks] at hc
  | cons item rest ih =>
    intro acc cur steps mem ctr c hc
    simp only [processItems] at hc
    cases item with
    | error e =>
      dsimp only at hc
      simp only [ItemsOut.chunks, List.mem_singleton] at hc
      subst hc; simp [allowedFinishReason, contentStopChunk]
    | ok chunk =>
      cases chunk with
      | Delta d =>
        cases d with
        | Content content =>
          dsimp only at hc
          by_cases hce : content.isEmpty = true
          · rw [if_pos hce] at hc
            exact ih acc cur steps mem ctr c hc
          · rw [if_neg hce] at hc
            cases hrec : processItems env rest (acc ++ content) cur steps mem ctr with
            | ended cs m =>
              rw [hrec] at hc
              simp only [ItemsOut.chunks, List.mem_cons] at hc
              rcases hc with hc | hc
              · subst hc; simp [allowedFinishReason, contentChunk]
              · exact ih (acc ++ content) cur steps mem ctr c
                  (by rw [hrec]; simpa [ItemsOut.chunks] using hc)
            | nextCycle cs s m ct =>
              rw [hrec] at hc
              simp only [ItemsOut.chunks, List.mem_cons] at hc
              rcases hc with hc | hc
              · subst hc; simp [allowedFinishReason, contentChunk]
              · exact ih (acc ++ content) cur steps mem ctr c
                  (by rw [hrec]; simpa [ItemsOut.chunks] using hc)
        | Action action =>
          dsimp only at hc
          cases hrec : processItems env rest acc cur steps mem
              (match action.log.get? "tool_id" with
                | some idv => ((Json.asStr? idv).getD "", ctr)
                | none => (env.mint ctr, ctr + 1)).2 with
          | ended cs m =>
            rw [hrec] at hc
            simp only [ItemsOut.chunks, List.mem_cons] at hc
            rcases hc with hc | hc
            · subst hc; simp [allowedFinishReason, partialToolCallChunk]
            · exact ih acc cur steps mem
                ((match action.log.get? "tool_id" with
                  | some idv => ((Json.asStr? idv).getD "", ctr)
                  | none => (env.mint ctr, ctr + 1)).2) c
                (by rw [hrec]; simpa [ItemsOut.chunks] using hc)
          | nextCycle cs s m ct =>
            rw [hrec] at hc
            simp only [ItemsOut.chunks, List.mem_cons] at hc
            rcases hc with hc | hc
            · subst hc; simp [allowedFinishReason, partialToolCallChunk]
            · exact ih acc cur steps mem
                ((match action.log.get? "tool_id" with
                  | some idv => ((Json.asStr? idv).getD "", ctr)
                  | none => (env.mint ctr, ctr + 1)).2) c
                (by rw [hrec]; simpa [ItemsOut.chunks] using hc)
      | Final e =>
        cases e with
        | Action actions =>
          dsimp only at hc
          cases hbatch : processBatch env actions steps cur ctr with
          | ended cs =>
            rw [hbatch] at hc
            simp only [ItemsOut.chunks] at hc
            exact processBatch_chunks_allowed env actions steps cur ctr c
              (by rw [hbatch]; simpa [BatchOut.chunks] using hc)
          | ok cs s2 c2 ct2 =>
            rw [hbatch] at hc
            simp only [ItemsOut.chunks] at hc
            exact processBatch_chunks_allowed env actions steps cur ctr c
              (by rw [hbatch]; simpa [BatchOut.chunks] using hc)
        | Finish f =>
          dsimp only at hc
          simp only [ItemsOut.chunks, List.mem_singleton] at hc
          subst hc; simp [allowedFinishReason, finishTerminalChunk]

theorem processItems_ended_last (env : StreamEnv)
    (items : List (Except String AgentEventChunk)) :
    ∀ acc cur steps mem ctr cs m,
      processItems env items acc cur steps mem ctr = .ended cs m →
      ∃ cl, cs.getLast? = some cl ∧ cl.finish_reason.isSome := by
  induction items with
  | nil => intro acc cur steps mem ctr cs m h; simp [processItems] at h
  | cons item rest ih =>
    intro acc cur steps mem ctr cs m h
    simp only [processItems] at h
    cases item with
    | error e =>
      dsimp only at h
      cases h
      exact ⟨_, rfl, rfl⟩
    | ok chunk =>
      cases chunk with
      | Delta d =>
        cases d with
        | Content content =>
          dsimp only at h
          by_cases hce : content.isEmpty = true
          · rw [if_pos hce] at h
            exact ih acc cur steps mem ctr cs m h
          · rw [if_neg hce] at h
            cases hrec : processItems env rest (acc ++ content) cur steps mem ctr with
            | ended cs2 m2 =>
              rw [hrec] at h
              cases h
              obtain ⟨cl, hcl, hs⟩ := ih (acc ++ content) cur steps mem ctr _ _ hrec
              exact ⟨cl, lastChunk_cons _ _ _ hcl, hs⟩
            | nextCycle cs2 s2 m2 ct2 =>
              rw [hrec] at h
              cases h
        | Action action =>
          dsimp only at h
          cases hrec : processItems env rest acc cur steps mem
              (match action.log.get? "tool_id" with
                | some idv => ((Json.asStr? idv).getD "", ctr)
                | none => (env.mint ctr, ctr + 1)).2 with
          | ended cs2 m2 =>
            rw [hrec] at h
            cases h
            obtain ⟨cl, hcl, hs⟩ := ih acc cur steps mem
              ((match action.log.get? "tool_id" with
                | some idv => ((Json.asStr? idv).getD "", ctr)
                | none => (env.mint ctr, ctr + 1)).2) _ _ hrec
            exact ⟨cl, lastChunk_cons _ _ _ hcl, hs⟩
          | nextCycle cs2 s2 m2 ct2 =>
            rw [hrec] at h
            cases h
      | Final e =>
        cases e with
        | Action actions =>
          dsimp only at h
          cases hbatch : processBatch env actions steps cur ctr with
          | ended cs2 =>
            rw [hbatch] at h
            cases h
            exact processBatch_ended_last env actions steps cur ctr _ hbatch
          | ok cs2 s2 c2 ct2 =>
            rw [hbatch] at h
            cases h
        | Finish f =>
          dsimp only at h
          cases h
          exact ⟨_, rfl, rfl⟩

theorem streamLoop_chunks_allowed (env : StreamEnv) :
    ∀ fuel steps mem ctr c, c ∈ (streamLoop env fuel steps mem ctr).chunks →
      allowedFinishReason c.finish_reason := by
  intro fuel
  induction fuel with
  | zero => intro steps mem ctr c hc; simp [streamLoop, StreamOut.chunks] at hc
  | succ n ih =>
    intro steps mem ctr c hc
    simp only [streamLoop] at hc
    cases hplan : env.planStream steps with
    | error e =>
      rw [hplan] at hc
      simp only [StreamOut.chunks, List.mem_singleton] at hc
      subst hc; simp [allowedFinishReason, contentStopChunk]
    | ok items =>
      rw [hplan] at hc
      dsimp only at hc
      cases hitems : processItems env items "" [] steps mem ctr with
      | ended cs m =>
        rw [hitems] at hc
        simp only [StreamOut.chunks] at hc
        exact processItems_chunks_allowed env items "" [] steps mem ctr c
          (by rw [hitems]; simpa [ItemsOut.chunks] using hc)
      | nextCycle cs steps2 mem2 ctr2 =>
        rw [hitems] at hc
        dsimp only at hc
        by_cases hcap : (match env.maxIterations with
            | some m => i32AsUsize m ≤ steps2.length
            | none => false) = true
        · rw [if_pos hcap] at hc
          simp only [StreamOut.chunks, List.mem_append, List.mem_singleton] at hc
          rcases hc with hc | hc
          · exact processItems_chunks_allowed env items "" [] steps mem ctr c
              (by rw [hitems]; simpa [ItemsOut.chunks] using hc)
          · subst hc; simp [allowedFinishReason, maxIterChunk]
        · rw [if_neg hcap] at hc
          cases hrec : streamLoop env n steps2 mem2 ctr2 with
          | ended cs2 m2 =>
            rw [hrec] at hc
            simp only [StreamOut.chunks, List.mem_append] at hc
            rcases hc with hc | hc
            · exact processItems_chunks_allowed env items "" [] steps mem ctr c
                (by rw [hitems]; simpa [ItemsOut.chunks] using hc)
            · exact ih steps2 mem2 ctr2 c (by rw [hrec]; simpa [StreamOut.chunks] using hc)
          | fuelOut cs2 m2 =>
            rw [hrec] at hc
            simp only [StreamOut.chunks, List.mem_append] at hc
            rcases hc with hc | hc
            · exact processItems_chunks_allowed env items "" [] steps mem ctr c
                (by rw [hitems]; simpa [ItemsOut.chunks] using hc)
            · exact ih steps2 mem2 ctr2 c (by rw [hrec]; simpa [StreamOut.chunks] using hc)

theorem streamLoop_ended_last (env : StreamEnv) :
    ∀ fuel steps mem ctr cs m, streamLoop env fuel steps mem ctr = .ended cs m →
      ∃ cl, cs.getLast? = some cl ∧ cl.finish_reason.isSome := by
  intro fuel
  induction fuel with
  | zero => intro steps mem ctr cs m h; simp [streamLoop] at h
  | succ n ih =>
    intro steps mem ctr cs m h
    simp only [streamLoop] at h
    cases hplan : env.planStream steps with
    | error e =>
      rw [hplan] at h
      cases h
      exact ⟨_, rfl, rfl⟩
    | ok items =>
      rw [hplan] at h
      dsimp only at h
      cases hitems : processItems env items "" [] steps mem ctr with
      | ended cs2 m2 =>
        rw [hitems] at h
        cases h
        exact processItems_ended_last env items "" [] steps mem ctr _ _ hitems
      | nextCycle cs2 steps2 mem2 ctr2 =>
        rw [hitems] at h
        dsimp only at h
        by_cases hcap : (match env.maxIterations with
            | some m => i32AsUsize m ≤ steps2.length
            | none => false) = true
        · rw [if_pos hcap] at h
          cases h
          exact ⟨maxIterChunk, lastChunk_append _ _ _ rfl, rfl⟩
        · rw [if_neg hcap] at h
          cases hrec : streamLoop env n steps2 mem2 ctr2 with
          | ended cs3 m3 =>
            rw [hrec] at h
            cases h
            obtain ⟨cl, hcl, hs⟩ := ih steps2 mem2 ctr2 _ _ hrec
            exact ⟨cl, lastChunk_append _ _ _ hcl, hs⟩
          | fuelOut cs3 m3 =>
            rw [hrec] at h
            cases h

/-- C4, amended: every wire chunk the streaming variant emits carries a
`finish_reason` among null, the empty string `""`, "stop" and "length" — the
final tool-call announcement chunk carries `""`, so the claimed three-value
set {null, "stop", "length"} is short one value. -/
theorem stream_finish_reason_allowed (env : StreamEnv) (fuel : Nat) (c : Chunk)
    (hc : c ∈ (stream env fuel).chunks) :
    allowedFinishReason c.finish_reason := by
  unfold stream at hc
  cases hrun : streamLoop env fuel [] env.memory 0 with
  | ended cs m =>
    rw [hrun] at hc
    dsimp only [StreamOut.chunks] at hc
    rcases List.mem_cons.mp hc with hc | hc
    · subst hc; simp [allowedFinishReason, initialChunk]
    · exact streamLoop_chunks_allowed env fuel [] env.memory 0 c
        (by rw [hrun]; simpa [StreamOut.chunks] using hc)
  | fuelOut cs m =>
    rw [hrun] at hc
    dsimp only [StreamOut.chunks] at hc
    rcases List.mem_cons.mp hc with hc | hc
    · subst hc; simp [allowedFinishReason, initialChunk]
    · exact streamLoop_chunks_allowed env fuel [] env.memory 0 c
        (by rw [hrun]; simpa [StreamOut.chunks] using hc)

/-- C4, witness: the third chunk of the concrete streaming run is emitted by
the stream and its finish reason is in the emitted set. -/
theorem stream_finish_reason_allowed_witness :
    finalToolCallChunk "conv" "c1" "t" "\x7b\x7d" ∈ (stream envStream1 5).chunks ∧
    allowedFinishReason (finalToolCallChunk "conv" "c1" "t" "\x7b\x7d").finish_reason :=
  ⟨by decide, stream_finish_reason_allowed envStream1 5 _ (by decide)⟩

/-- C4, counterexample to the claim as stated: the streaming run emits a
tool-call announcement chunk whose `finish_reason` is the empty string `""`,
which is neither null nor "stop" nor "length". -/
theorem stream_empty_finish_reason_cex :
    (stream envStream1 5).chunks[2]? =
      some (finalToolCallChunk "conv" "c1" "t" "\x7b\x7d") ∧
    (finalToolCallChunk "conv" "c1" "t" "\x7b\x7d").finish_reason = some "" ∧
    (some "" : Option String) ≠ none ∧
    (some "" : Option String) ≠ some "stop" ∧
    (some "" : Option String) ≠ some "length" :=
  ⟨by decide, rfl, by decide, by decide, by decide⟩

/-- C8: whenever the streaming task terminates, the first chunk pushed into
the channel has `delta.role = "assistant"`, `delta.content = null` and a
null `finish_reason`, and the last chunk pushed has a non-null
`finish_reason` — the channel is never closed without a terminal chunk, on
every termination path (Finish, fatal error, iteration cap). -/
theorem stream_first_and_terminal (env : StreamEnv) (fuel : Nat)
    (cs : List Chunk) (mem : Option (List Message))
    (h : stream env fuel = .ended cs mem) :
    (∃ c0, cs.head? = some c0 ∧
      c0.delta.get? "role" = some (.str "assistant") ∧
      c0.delta.get? "content" = some .null ∧
      c0.finish_reason = none) ∧
    ∃ cl, cs.getLast? = some cl ∧ cl.finish_reason.isSome := by
  unfold stream at h
  cases hrun : streamLoop env fuel [] env.memory 0 with
  | ended cs2 m2 =>
    rw [hrun] at h
    cases h
    obtain ⟨cl, hcl, hs⟩ := streamLoop_ended_last env fuel [] env.memory 0 _ _ hrun
    exact ⟨⟨initialChunk, rfl, by decide, by decide, rfl⟩,
           ⟨cl, lastChunk_cons _ _ _ hcl, hs⟩⟩
  | fuelOut cs2 m2 =>
    rw [hrun] at h
    cases h

/-- C8, witness: the concrete streaming run terminates; its first chunk is
the assistant/null initial chunk and its last chunk has a non-null finish
reason. -/
theorem stream_first_and_terminal_witness :
    (∃ c0, (stream envStream1 5).chunks.head? = some c0 ∧
      c0.delta.get? "role" = some (.str "assistant") ∧
      c0.delta.get? "content" = some .null ∧
      c0.finish_reason = none) ∧
    ∃ cl, (stream envStream1 5).chunks.getLast? = some cl ∧
      cl.finish_reason.isSome :=
  stream_first_and_terminal envStream1 5 (stream envStream1 5).chunks
    (stream envStream1 5).memOut (by rfl)
